import Mathlib

/-!
Verification of the PDF chunking pipeline of the law_school repository
(src/documents/pdf_processor.py).  Strings are modelled as lists of
characters; each Python regular-expression substitution is modelled as a
left-to-right scan (reSubF) that, at every position, either applies the
unique match the pattern can make there (the character classes of every
pattern used by the code are pairwise disjoint, so greedy matching never
backtracks) or moves one character forward, exactly as re.sub does.
-/

/-- Python whitespace class (ASCII fragment), the set matched by the \s
class and by str.strip and str.split in the source. -/
def isSpaceChar (c : Char) : Bool :=
  c == ' ' || c == '\t' || c == '\n' || c == '\r' || c == '\x0b' || c == '\x0c'

/-- Python word-character class \w (ASCII fragment): alphanumerics and
underscore. -/
def isWordChar (c : Char) : Bool :=
  c.isAlphanum || c == '_'

/-- The punctuation allow-list of preprocess_text, line 174 of
pdf_processor.py: periods, commas, colons, semicolons, parentheses,
brackets, braces, quotes and the three dash characters. -/
def legalPunct : List Char :=
  ['.', ',', ':', ';', '(', ')', '[', ']', '\x7b', '\x7d',
   Char.ofNat 39, Char.ofNat 34, '-', '—', '–']

/-- A character survives the allow-list filter of preprocess_text. -/
def allowedChar (c : Char) : Bool :=
  isWordChar c || isSpaceChar c || legalPunct.contains c

/-- Fueled model of re.sub: at every position the matcher either returns
the replacement together with the unmatched remainder of the string, or
the scan advances one character, as the Python regex engine does.  Every
matcher used below consumes at least one character, so fuel equal to the
length of the input never runs out. -/
def reSubF (m : List Char → Option (List Char × List Char)) :
    Nat → List Char → List Char
  | 0, l => l
  | _ + 1, [] => []
  | fuel + 1, c :: cs =>
    match m (c :: cs) with
    | some (rep, rest) => rep ++ reSubF m fuel rest
    | none => c :: reSubF m fuel cs

/-- Run a substitution over a whole string. -/
def subAll (m : List Char → Option (List Char × List Char)) (l : List Char) :
    List Char :=
  reSubF m l.length l

/-- Model of re.search for the patterns used here: the match attempt at
the leftmost position that succeeds wins, and the full matched text is
returned. -/
def reSearch (m : List Char → Option (List Char × List Char)) :
    List Char → Option (List Char)
  | [] => none
  | c :: cs =>
    match m (c :: cs) with
    | some (mt, _) => some mt
    | none => reSearch m cs

/-- Matcher for the pattern \s+ with replacement a single space
(lines 170 and 177 of pdf_processor.py). -/
def wsRunM (l : List Char) : Option (List Char × List Char) :=
  match l.takeWhile isSpaceChar with
  | [] => none
  | _ :: _ => some ([' '], l.dropWhile isSpaceChar)

/-- re.sub of every whitespace run by one space. -/
def collapseWs (l : List Char) : List Char :=
  subAll wsRunM l

/-- The allow-list substitution of line 174: every disallowed character
is replaced by a space. -/
def stripDisallowed (l : List Char) : List Char :=
  l.map (fun c => if allowedChar c then c else ' ')

/-- Python str.strip: remove leading and trailing whitespace. -/
def trim (l : List Char) : List Char :=
  ((l.dropWhile isSpaceChar).reverse.dropWhile isSpaceChar).reverse

/-- Matcher for the broken-word pattern of line 198,
(\w+)\s+(\w+) with the conditional lambda replacement: when both words
have more than one character the replacement is the two words joined by
one space, otherwise the whole match is put back unchanged. -/
def brokenPairM (l : List Char) : Option (List Char × List Char) :=
  let w1 := l.takeWhile isWordChar
  let r1 := l.dropWhile isWordChar
  let s := r1.takeWhile isSpaceChar
  let r2 := r1.dropWhile isSpaceChar
  let w2 := r2.takeWhile isWordChar
  let rest := r2.dropWhile isWordChar
  if w1.isEmpty || s.isEmpty || w2.isEmpty then none
  else some
    (if 1 < w1.length ∧ 1 < w2.length then w1 ++ ' ' :: w2 else w1 ++ s ++ w2,
     rest)

/-- Matcher for the hyphenation pattern of line 201, (\w+)-\s+(\w+) with
replacement the two words glued together. -/
def hyphenM (l : List Char) : Option (List Char × List Char) :=
  let w1 := l.takeWhile isWordChar
  let r1 := l.dropWhile isWordChar
  if w1.isEmpty then none
  else
    match r1 with
    | d :: r2 =>
      if d = '-' then
        let s := r2.takeWhile isSpaceChar
        let r3 := r2.dropWhile isSpaceChar
        let w2 := r3.takeWhile isWordChar
        let rest := r3.dropWhile isWordChar
        if s.isEmpty || w2.isEmpty then none else some (w1 ++ w2, rest)
      else none
    | [] => none

/-- Matcher for the pattern of line 204: two or more literal spaces,
replaced by one space. -/
def multiSpaceM (l : List Char) : Option (List Char × List Char) :=
  let s := l.takeWhile (fun c => c == ' ')
  if 2 ≤ s.length then some ([' '], l.dropWhile (fun c => c == ' ')) else none

/-- Greedy consumption of the tail (\.\d+)* of the section-number
pattern; the fuel is the length of the remaining input. -/
def dotGroupsF : Nat → List Char → List Char
  | 0, _ => []
  | fuel + 1, '.' :: cs =>
    match cs.takeWhile Char.isDigit with
    | [] => []
    | d :: ds => '.' :: ((d :: ds) ++ dotGroupsF fuel (cs.dropWhile Char.isDigit))
  | _ + 1, _ => []

/-- Match the number part \d+(?:\.\d+)* at the head of the input,
returning the matched text and the remainder. -/
def numTail (l : List Char) : Option (List Char × List Char) :=
  match l.takeWhile Char.isDigit with
  | [] => none
  | d :: ds =>
    let r := l.dropWhile Char.isDigit
    let g := dotGroupsF r.length r
    some ((d :: ds) ++ g, r.drop g.length)

/-- Case-insensitive literal keyword match at the head of the input;
returns the text as it appears in the input and the remainder. -/
def kwCaseless : List Char → List Char → Option (List Char × List Char)
  | [], l => some ([], l)
  | _ :: _, [] => none
  | k :: ks, c :: cs =>
    if k.toLower == c.toLower then
      match kwCaseless ks cs with
      | some (m, r) => some (c :: m, r)
      | none => none
    else none

/-- Case-sensitive literal keyword match at the head of the input,
returning the remainder. -/
def kwExact : List Char → List Char → Option (List Char)
  | [], l => some l
  | _ :: _, [] => none
  | k :: ks, c :: cs => if k == c then kwExact ks cs else none

/-- Matcher for one section pattern of extract_sections: keyword
(case-insensitive), then whitespace (required unless spaceReq is false,
the § case), then a section number. -/
def kwNumM (kw : List Char) (spaceReq : Bool) (l : List Char) :
    Option (List Char × List Char) :=
  match kwCaseless kw l with
  | none => none
  | some (mkw, r1) =>
    let s := r1.takeWhile isSpaceChar
    let r2 := r1.dropWhile isSpaceChar
    if spaceReq && s.isEmpty then none
    else
      match numTail r2 with
      | none => none
      | some (num, rest) => some (mkw ++ s ++ num, rest)

def kwSection : List Char := "Section".toList

def kwPara : List Char := "§".toList

def kwArticle : List Char := "Article".toList

def kwChapter : List Char := "Chapter".toList

def kwPart : List Char := "Part".toList

/-- Matcher for the case-sensitive normalization of line 208,
Section\s+(\d+(?:\.\d+)*) with replacement Section-space-number. -/
def sectionFixM (l : List Char) : Option (List Char × List Char) :=
  match kwExact kwSection l with
  | none => none
  | some r1 =>
    match r1.takeWhile isSpaceChar with
    | [] => none
    | _ :: _ =>
      let r2 := r1.dropWhile isSpaceChar
      match numTail r2 with
      | none => none
      | some (num, rest) => some (kwSection ++ ' ' :: num, rest)

/-- Lower-case letter or digit, the class [a-z0-9] of line 211. -/
def isLowerDigit (c : Char) : Bool :=
  c.isLower || c.isDigit

/-- Matcher for the enumerator pattern of line 211, \(([a-z0-9]+)\) with
replacement (\1): the replacement reproduces the match verbatim. -/
def enumM (l : List Char) : Option (List Char × List Char) :=
  match l with
  | '(' :: r1 =>
    match r1.dropWhile isLowerDigit with
    | ')' :: rest =>
      if (r1.takeWhile isLowerDigit).isEmpty then none
      else some ('(' :: (r1.takeWhile isLowerDigit ++ [')']), rest)
    | _ => none
  | _ => none

/-- The processor configuration, from the constructor of PDFProcessor. -/
structure PDFProcessor where
  min_chunk_length : Nat
  max_chunk_length : Nat
deriving DecidableEq

/-- The processor built by the constructor: min 50, max 2000. -/
def defaultProcessor : PDFProcessor := ⟨50, 2000⟩

/-- Model of PDFProcessor._fix_common_issues: the five substitutions of
lines 198 to 211, in source order. -/
def PDFProcessor.fix_common_issues (_p : PDFProcessor) (text : List Char) :
    List Char :=
  subAll enumM
    (subAll sectionFixM
      (subAll multiSpaceM
        (subAll hyphenM
          (subAll brokenPairM text))))

/-- Model of PDFProcessor.preprocess_text, lines 156 to 185: collapse
whitespace, apply the allow-list, collapse again, strip, then repair
extraction artifacts. -/
def PDFProcessor.preprocess_text (p : PDFProcessor) (text : List Char) :
    List Char :=
  match text with
  | [] => []
  | _ :: _ =>
    p.fix_common_issues (trim (collapseWs (stripDisallowed (collapseWs text))))

/-- Model of PDFProcessor.extract_sections, lines 215 to 240: the five
patterns are tried in the fixed source order and the first full match
wins. -/
def PDFProcessor.extract_sections (_p : PDFProcessor) (text : List Char)
    (_page_number : Nat) : Option (List Char) :=
  match reSearch (kwNumM kwSection true) text with
  | some m => some m
  | none =>
    match reSearch (kwNumM kwPara false) text with
    | some m => some m
    | none =>
      match reSearch (kwNumM kwArticle true) text with
      | some m => some m
      | none =>
        match reSearch (kwNumM kwChapter true) text with
        | some m => some m
        | none => reSearch (kwNumM kwPart true) text

/-- Sentence-boundary characters of the split pattern of line 260. -/
def isSentEnd (c : Char) : Bool :=
  c == '.' || c == '!' || c == '?'

/-- Whether the last character read (head of the reversed accumulator)
is a sentence-boundary character. -/
def headSentEnd : List Char → Bool
  | [] => false
  | c :: _ => isSentEnd c

/-- Single-pass model of re.split with pattern (?<=[.!?])\s+ : a
whitespace run is a separator exactly when the character before it is a
sentence-boundary character; the separator run is consumed (the skipping
flag) and everything else accumulates into the current piece. -/
def splitSentAux : List Char → List Char → Bool → List (List Char)
  | [], acc, _ => [acc.reverse]
  | c :: cs, acc, false =>
    if isSpaceChar c && headSentEnd acc then
      acc.reverse :: splitSentAux cs [] true
    else splitSentAux cs (c :: acc) false
  | c :: cs, acc, true =>
    if isSpaceChar c then splitSentAux cs acc true
    else splitSentAux cs [c] false

/-- re.split of the text at whitespace runs preceded by . or ! or ? ,
line 260 of pdf_processor.py. -/
def splitSentences (l : List Char) : List (List Char) :=
  splitSentAux l [] false

/-- Accumulator pass behind splitWords. -/
def swAux : List Char → List Char → List (List Char)
  | acc, [] => match acc with | [] => [] | _ :: _ => [acc.reverse]
  | acc, c :: cs =>
    if isSpaceChar c then
      match acc with
      | [] => swAux [] cs
      | _ :: _ => acc.reverse :: swAux [] cs
    else swAux (c :: acc) cs

/-- Python str.split() with no argument: split at whitespace runs and
drop empty pieces, as used on line 291. -/
def splitWords (l : List Char) : List (List Char) :=
  swAux [] l

/-- One output chunk dict of chunk_text, lines 273 to 277. -/
structure Chunk where
  text : List Char
  page_number : Nat
  sectionLabel : Option (List Char)
  chunk_index : Nat
deriving DecidableEq

/-- The loop state of chunk_text: emitted chunks, the accumulating
buffer (current_chunk or temp_chunk), and the next local chunk index. -/
structure ChunkSt where
  chunks : List Chunk
  buf : List Char
  idx : Nat
deriving DecidableEq

/-- The word-level fallback loop of lines 294 to 306: greedily pack
words into the buffer, flushing it as a chunk when the next word would
overflow max_chunk_length and the trimmed buffer meets
min_chunk_length. -/
def packWords (p : PDFProcessor) (pn : Nat) (sect : Option (List Char)) :
    ChunkSt → List (List Char) → ChunkSt
  | st, [] => st
  | st, w :: ws =>
    if st.buf ≠ [] ∧ p.max_chunk_length < st.buf.length + w.length + 1 then
      if p.min_chunk_length ≤ (trim st.buf).length then
        packWords p pn sect
          ⟨st.chunks ++ [⟨trim st.buf, pn, sect, st.idx⟩], w, st.idx + 1⟩ ws
      else packWords p pn sect ⟨st.chunks, w, st.idx⟩ ws
    else packWords p pn sect
      ⟨st.chunks, (if st.buf = [] then w else st.buf ++ ' ' :: w), st.idx⟩ ws

/-- One iteration of the sentence loop of lines 265 to 308: strip the
sentence, skip it when empty, flush the buffer when the sentence would
overflow it, append otherwise, and run the word-level fallback when the
buffer exceeds max_chunk_length. -/
def sentStep (p : PDFProcessor) (pn : Nat) (sect : Option (List Char))
    (st : ChunkSt) (s0 : List Char) : ChunkSt :=
  let s := trim s0
  if s = [] then st
  else
    let st1 : ChunkSt :=
      if st.buf ≠ [] ∧ p.max_chunk_length < st.buf.length + s.length + 1 then
        if p.min_chunk_length ≤ (trim st.buf).length then
          ⟨st.chunks ++ [⟨trim st.buf, pn, sect, st.idx⟩], s, st.idx + 1⟩
        else ⟨st.chunks, s, st.idx⟩
      else ⟨st.chunks, (if st.buf = [] then s else st.buf ++ ' ' :: s), st.idx⟩
    if p.max_chunk_length < st1.buf.length then
      packWords p pn sect ⟨st1.chunks, [], st1.idx⟩ (splitWords st1.buf)
    else st1

/-- Model of PDFProcessor.chunk_text, lines 242 to 319: the early return
for short input, the sentence loop, and the final flush of the remaining
buffer. -/
def PDFProcessor.chunk_text (p : PDFProcessor) (text : List Char) (pn : Nat)
    (sect : Option (List Char)) : List Chunk :=
  if text = [] ∨ (trim text).length < p.min_chunk_length then []
  else
    let st := (splitSentences text).foldl (sentStep p pn sect) ⟨[], [], 0⟩
    if st.buf ≠ [] ∧ p.min_chunk_length ≤ (trim st.buf).length then
      st.chunks ++ [⟨trim st.buf, pn, sect, st.idx⟩]
    else st.chunks

/-- Per-page extraction loop shared by both backends (lines 90 to 98 and
118 to 152): a page whose extraction raised (modelled none) is skipped,
a page whose text strips to empty is skipped, every other page is kept
with its true 1-based page number. -/
def extractPagesAux : Nat → List (Option (List Char)) → List (List Char × Nat)
  | _, [] => []
  | n, none :: rest => extractPagesAux (n + 1) rest
  | n, some t :: rest =>
    if trim t = [] then extractPagesAux (n + 1) rest
    else (t, n) :: extractPagesAux (n + 1) rest

/-- Page filter applied to the raw per-page backend output. -/
def extractPages (raws : List (Option (List Char))) : List (List Char × Nat) :=
  extractPagesAux 1 raws

/-- The PyPDF2 attempt of lines 52 to 59: when the library is present
and its call does not raise and it yields at least one page, that
result wins; any failure or empty result falls through. -/
def tryPyPdf2 (avail : Bool)
    (res : Except String (List (Option (List Char)))) :
    Option (List (List Char × Nat)) :=
  if avail then
    match res with
    | .ok raws =>
      match extractPages raws with
      | [] => none
      | r :: rs => some (r :: rs)
    | .error _ => none
  else none

/-- Model of PDFProcessor.extract_text_from_pdf, lines 36 to 72.  The
file system and the two backend libraries are parameters: availability
flags and, when a backend runs, either its per-page raw output or an
exception message for a failure of the whole backend call. -/
def extract_text_from_pdf (p2avail : Bool)
    (p2 : Except String (List (Option (List Char)))) (pmavail : Bool)
    (pm : Except String (List (Option (List Char)))) :
    Except String (List (List Char × Nat)) :=
  match tryPyPdf2 p2avail p2 with
  | some r => .ok r
  | none =>
    if pmavail then
      match pm with
      | .ok raws =>
        match extractPages raws with
        | [] =>
          .error
            "No PDF extraction library available. Please install PyPDF2 or pdfminer.six"
        | r :: rs => .ok (r :: rs)
      | .error e => .error ("Failed to extract text from PDF: " ++ e)
    else
      .error
        "No PDF extraction library available. Please install PyPDF2 or pdfminer.six"

/-- Overwrite the local chunk indices of one page with the running
document-global counter, lines 358 to 360. -/
def renumber (g : Nat) : List Chunk → List Chunk
  | [] => []
  | c :: cs => { c with chunk_index := g } :: renumber (g + 1) cs

/-- The per-page body of the process_pdf loop, lines 344 to 355:
preprocess, skip a page whose cleaned text is empty or too short,
detect the section, chunk. -/
def pageChunks (p : PDFProcessor) (pg : List Char × Nat) : List Chunk :=
  let cleaned := p.preprocess_text pg.1
  if cleaned = [] ∨ (trim cleaned).length < p.min_chunk_length then []
  else p.chunk_text cleaned pg.2 (p.extract_sections cleaned pg.2)

/-- One fold step of the page loop, threading the global chunk
counter. -/
def pageStep (p : PDFProcessor) (st : List Chunk × Nat) (pg : List Char × Nat) :
    List Chunk × Nat :=
  let cs := pageChunks p pg
  (st.1 ++ renumber st.2 cs, st.2 + cs.length)

/-- The pure part of process_pdf after extraction, lines 336 to 366:
the empty-pages early return and the page loop with global
renumbering. -/
def process_pages (p : PDFProcessor) (pages : List (List Char × Nat)) :
    List Chunk :=
  match pages with
  | [] => []
  | _ :: _ => (pages.foldl (pageStep p) ([], 0)).1

/-- Model of PDFProcessor.process_pdf, lines 321 to 366: extraction
followed by the page loop; an extraction failure propagates. -/
def PDFProcessor.process_pdf (p : PDFProcessor) (p2avail : Bool)
    (p2 : Except String (List (Option (List Char)))) (pmavail : Bool)
    (pm : Except String (List (Option (List Char)))) :
    Except String (List Chunk) :=
  match extract_text_from_pdf p2avail p2 pmavail pm with
  | .error e => .error e
  | .ok pages => .ok (process_pages p pages)

/-- Every chunk accumulated so far meets the minimum length. -/
def chunksMin (p : PDFProcessor) (cs : List Chunk) : Prop :=
  ∀ c ∈ cs, p.min_chunk_length ≤ c.text.length

/-- All words of a string are bounded by B. -/
def wordsLe (B : Nat) (l : List Char) : Prop :=
  ∀ w ∈ splitWords l, w.length ≤ B

/-- Invariant of the chunking loop under the word-length hypothesis:
emitted chunks and the buffer never exceed max_chunk_length, and the
buffer only contains bounded words. -/
def stUpper (p : PDFProcessor) (st : ChunkSt) : Prop :=
  (∀ c ∈ st.chunks, c.text.length ≤ p.max_chunk_length) ∧
  st.buf.length ≤ p.max_chunk_length ∧ wordsLe p.max_chunk_length st.buf

/-- After whitespace collapsing: every whitespace character is a plain
space and no two whitespace characters are adjacent. -/
def wsOk (l : List Char) : Prop :=
  (∀ c ∈ l, isSpaceChar c = true → c = ' ') ∧
  List.Chain' (fun a b => ¬(isSpaceChar a = true ∧ isSpaceChar b = true)) l

/-- The head of the string, when present, is not whitespace. -/
def headNotWs : List Char → Prop
  | [] => True
  | c :: _ => isSpaceChar c = false

/-- Modelled from the spec, section 4.2: the normalizer with the dead
broken-word rejoin heuristic omitted, the variant the spec says
implementers may use; all other steps are unchanged. -/
def PDFProcessor.fix_common_issues_norejoin (_p : PDFProcessor)
    (text : List Char) : List Char :=
  subAll enumM (subAll sectionFixM (subAll multiSpaceM (subAll hyphenM text)))

/-- Modelled from the spec, section 4.2: preprocess_text built on the
rejoin-free normalizer. -/
def PDFProcessor.preprocess_text_norejoin (p : PDFProcessor) (text : List Char) :
    List Char :=
  match text with
  | [] => []
  | _ :: _ =>
    p.fix_common_issues_norejoin
      (trim (collapseWs (stripDisallowed (collapseWs text))))

def demoText : List Char := List.replicate 60 'a'

def demoPage : List Char :=
  "The quick brown fox jumps over the lazy dog near the river bank today.".toList

def c5text : List Char :=
  "Article 4 applies, see Section 4.1 for details".toList

def c6text : List Char := "constitu-\ntion".toList

def c7text : List Char := "( a )".toList

def c8wit : List Char :=
  List.replicate 1500 'a' ++ ' ' :: List.replicate 1499 'a'

/-!  Basic list lemmas used throughout the development. -/

/-- A fold preserves an invariant that every step preserves. -/
theorem foldl_inv {α σ : Type _} (P : σ → Prop) (f : σ → α → σ) :
    ∀ (l : List α) (init : σ), P init →
      (∀ s a, a ∈ l → P s → P (f s a)) → P (l.foldl f init)
  | [], _, h0, _ => h0
  | a :: l, init, h0, hs =>
    foldl_inv P f l (f init a) (hs init a (List.mem_cons_self a l) h0)
      (fun s b hb => hs s b (List.mem_cons_of_mem a hb))

theorem mem_takeWhile {p : α → Bool} :
    ∀ {l : List α} {x : α}, x ∈ l.takeWhile p → p x = true := by
  intro l
  induction l with
  | nil => intro x h; simp [List.takeWhile] at h
  | cons a l ih =>
    intro x h
    rw [List.takeWhile_cons] at h
    by_cases ha : p a
    · simp [ha] at h
      rcases h with h | h
      · rwa [h]
      · exact ih h
    · simp [ha] at h

theorem takeWhile_all {p : α → Bool} :
    ∀ {l : List α}, (∀ x ∈ l, p x = true) → l.takeWhile p = l := by
  intro l
  induction l with
  | nil => intro _; rfl
  | cons a l ih =>
    intro h
    rw [List.takeWhile_cons, h a (List.mem_cons_self a l)]
    simp [ih (fun x hx => h x (List.mem_cons_of_mem a hx))]

theorem dropWhile_all {p : α → Bool} :
    ∀ {l : List α}, (∀ x ∈ l, p x = true) → l.dropWhile p = [] := by
  intro l
  induction l with
  | nil => intro _; rfl
  | cons a l ih =>
    intro h
    rw [List.dropWhile_cons, h a (List.mem_cons_self a l)]
    simp [ih (fun x hx => h x (List.mem_cons_of_mem a hx))]

theorem takeWhile_app_stop {p : α → Bool} {x : α} (hx : p x = false) :
    ∀ (l : List α) (r : List α), (∀ c ∈ l, p c = true) →
      (l ++ x :: r).takeWhile p = l := by
  intro l
  induction l with
  | nil => intro r _; simp [List.takeWhile_cons, hx]
  | cons a l ih =>
    intro r h
    rw [List.cons_append, List.takeWhile_cons, h a (List.mem_cons_self a l)]
    simp [ih r (fun c hc => h c (List.mem_cons_of_mem a hc))]

theorem dropWhile_app_stop {p : α → Bool} {x : α} (hx : p x = false) :
    ∀ (l : List α) (r : List α), (∀ c ∈ l, p c = true) →
      (l ++ x :: r).dropWhile p = x :: r := by
  intro l
  induction l with
  | nil => intro r _; simp [List.dropWhile_cons, hx]
  | cons a l ih =>
    intro r h
    rw [List.cons_append, List.dropWhile_cons, h a (List.mem_cons_self a l)]
    simp [ih r (fun c hc => h c (List.mem_cons_of_mem a hc))]

/-- The dropWhile of a list is one of its suffixes. -/
theorem dropWhile_isSuffix (p : α → Bool) (l : List α) :
    l.dropWhile p <:+ l :=
  ⟨l.takeWhile p, List.takeWhile_append_dropWhile p l⟩

/-- Splitting off the trailing whitespace kept by trim. -/
theorem rdrop_decomp (m : List Char) :
    m = (m.reverse.dropWhile isSpaceChar).reverse ++
        (m.reverse.takeWhile isSpaceChar).reverse := by
  conv_lhs => rw [← List.reverse_reverse m,
    ← List.takeWhile_append_dropWhile isSpaceChar m.reverse]
  rw [List.reverse_append]

/-- The trimmed string is an infix of the original. -/
theorem trim_within (l : List Char) : trim l <:+: l := by
  refine ⟨l.takeWhile isSpaceChar,
    ((l.dropWhile isSpaceChar).reverse.takeWhile isSpaceChar).reverse, ?_⟩
  have h1 : trim l ++ ((l.dropWhile isSpaceChar).reverse.takeWhile isSpaceChar).reverse
      = l.dropWhile isSpaceChar := (rdrop_decomp (l.dropWhile isSpaceChar)).symm
  rw [List.append_assoc, h1]
  exact List.takeWhile_append_dropWhile isSpaceChar l

theorem trim_length_le (l : List Char) : (trim l).length ≤ l.length :=
  (trim_within l).length_le

/-- Characters left after trimming come from the original string. -/
theorem trim_subset {l : List Char} {c : Char} (h : c ∈ trim l) : c ∈ l :=
  (trim_within l).subset h

/-!  Lemmas about splitWords (Python str.split). -/

/-- A whitespace separator splits the word scan into two independent
scans. -/
theorem swAux_append_sep {c : Char} (hc : isSpaceChar c = true) :
    ∀ (a acc b : List Char), swAux acc (a ++ c :: b) = swAux acc a ++ swAux [] b := by
  intro a
  induction a with
  | nil =>
    intro acc b
    cases acc <;> simp [swAux, hc]
  | cons d a ih =>
    intro acc b
    by_cases hd : isSpaceChar d = true
    · cases acc <;> simp [swAux, hd, ih]
    · simp only [List.cons_append, swAux, hd]
      simp only [Bool.false_eq_true, if_false]
      exact ih (d :: acc) b

/-- Trailing whitespace never contributes a word. -/
theorem swAux_ws_only :
    ∀ (t : List Char), (∀ x ∈ t, isSpaceChar x = true) →
      ∀ acc, swAux acc t = swAux acc [] := by
  intro t
  induction t with
  | nil => intro _ _; rfl
  | cons c t ih =>
    intro h acc
    have hc : isSpaceChar c = true := h c (List.mem_cons_self c t)
    have ht : ∀ x ∈ t, isSpaceChar x = true :=
      fun x hx => h x (List.mem_cons_of_mem c hx)
    cases acc <;> simp [swAux, hc, ih ht]

/-- Appending trailing whitespace does not change the word split. -/
theorem swAux_append_ws :
    ∀ (a acc t : List Char), (∀ x ∈ t, isSpaceChar x = true) →
      swAux acc (a ++ t) = swAux acc a := by
  intro a
  induction a with
  | nil => intro acc t h; exact swAux_ws_only t h acc
  | cons d a ih =>
    intro acc t h
    by_cases hd : isSpaceChar d = true
    · cases acc <;> simp [swAux, hd, ih _ _ h]
    · simp only [List.cons_append, swAux, hd]
      simp only [Bool.false_eq_true, if_false]
      exact ih (d :: acc) t h

/-- Leading whitespace does not change the word split. -/
theorem swAux_dropWhile_front :
    ∀ l : List Char, swAux [] (l.dropWhile isSpaceChar) = swAux [] l := by
  intro l
  induction l with
  | nil => rfl
  | cons c cs ih =>
    by_cases hc : isSpaceChar c = true
    · rw [List.dropWhile_cons_of_pos hc, ih]
      simp [swAux, hc]
    · rw [List.dropWhile_cons_of_neg (by simp [hc])]

/-- Python str.strip does not change the word split. -/
theorem splitWords_trim (l : List Char) : splitWords (trim l) = splitWords l := by
  unfold splitWords
  have h1 : swAux [] (trim l) = swAux [] (l.dropWhile isSpaceChar) := by
    have hd : trim l ++ ((l.dropWhile isSpaceChar).reverse.takeWhile isSpaceChar).reverse
        = l.dropWhile isSpaceChar := (rdrop_decomp (l.dropWhile isSpaceChar)).symm
    have hw : ∀ x ∈ ((l.dropWhile isSpaceChar).reverse.takeWhile isSpaceChar).reverse,
        isSpaceChar x = true := by
      intro x hx
      exact mem_takeWhile (List.mem_reverse.mp hx)
    rw [← hd, swAux_append_ws _ _ _ hw]
  rw [h1, swAux_dropWhile_front]

/-- Every word produced by splitWords is nonempty and whitespace-free. -/
theorem swAux_elems :
    ∀ (l acc : List Char), (∀ c ∈ acc, isSpaceChar c = false) →
      ∀ w ∈ swAux acc l, w ≠ [] ∧ ∀ c ∈ w, isSpaceChar c = false := by
  intro l
  induction l with
  | nil =>
    intro acc hacc w hw
    cases acc with
    | nil => simp only [swAux] at hw; exact absurd hw (List.not_mem_nil w)
    | cons a as =>
      simp only [swAux] at hw
      rw [List.mem_singleton.mp hw]
      constructor
      · simp
      · intro c hc
        exact hacc c (List.mem_reverse.mp hc)
  | cons d l ih =>
    intro acc hacc w hw
    by_cases hd : isSpaceChar d = true
    · cases acc with
      | nil =>
        simp only [swAux, hd, if_true] at hw
        exact ih [] (by simp) w hw
      | cons a as =>
        simp only [swAux, hd, if_true] at hw
        rcases List.mem_cons.mp hw with h | h
        · rw [h]
          constructor
          · simp
          · intro c hc
            exact hacc c (List.mem_reverse.mp hc)
        · exact ih [] (by simp) w h
    · simp only [swAux, hd, Bool.false_eq_true, if_false] at hw
      refine ih (d :: acc) ?_ w hw
      intro c hc
      rcases List.mem_cons.mp hc with h | h
      · rw [h]; simpa using hd
      · exact hacc c h

/-- A nonempty whitespace-free string is a single word. -/
theorem swAux_no_ws :
    ∀ (l acc : List Char), (∀ c ∈ l, isSpaceChar c = false) →
      acc.reverse ++ l ≠ [] → swAux acc l = [acc.reverse ++ l] := by
  intro l
  induction l with
  | nil =>
    intro acc _ hne
    cases acc with
    | nil => simp at hne
    | cons a as => simp [swAux]
  | cons d l ih =>
    intro acc h hne
    have hd : isSpaceChar d = false := h d (List.mem_cons_self d l)
    simp only [swAux, hd, Bool.false_eq_true, if_false]
    rw [ih (d :: acc) (fun c hc => h c (List.mem_cons_of_mem d hc)) (by simp)]
    simp

theorem splitWords_single {w : List Char} (hne : w ≠ [])
    (h : ∀ c ∈ w, isSpaceChar c = false) : splitWords w = [w] := by
  unfold splitWords
  rw [swAux_no_ws w [] h (by simpa using hne)]
  simp

/-!  The sentence split never cuts a word: word boundaries of the pieces
are word boundaries of the whole text. -/

theorem splitSent_words :
    ∀ (l acc : List Char) (skip : Bool), (skip = true → acc = []) →
      (splitSentAux l acc skip).flatMap splitWords =
        splitWords (acc.reverse ++ l) := by
  intro l
  induction l with
  | nil =>
    intro acc skip _
    simp [splitSentAux, splitWords]
  | cons c cs ih =>
    intro acc skip hsk
    cases skip with
    | false =>
      by_cases h : (isSpaceChar c && headSentEnd acc) = true
      · have hc : isSpaceChar c = true := (Bool.and_eq_true _ _).mp h |>.1
        simp only [splitSentAux, h, if_true, List.flatMap_cons]
        rw [ih [] true (fun _ => rfl)]
        unfold splitWords
        rw [swAux_append_sep hc acc.reverse [] cs]
        simp
      · simp only [splitSentAux, h, Bool.false_eq_true, if_false]
        rw [ih (c :: acc) false (by simp)]
        simp
    | true =>
      have hacc : acc = [] := hsk rfl
      subst hacc
      by_cases hc : isSpaceChar c = true
      · simp only [splitSentAux, hc, if_true]
        rw [ih [] true (fun _ => rfl)]
        simp only [List.reverse_nil, List.nil_append]
        unfold splitWords
        simp [swAux, hc]
      · simp only [splitSentAux, hc, Bool.false_eq_true, if_false]
        rw [ih [c] false (by simp)]
        simp

/-- A word of a sentence piece is a word of the whole text. -/
theorem word_of_sentence {text s w : List Char} (hs : s ∈ splitSentences text)
    (hw : w ∈ splitWords s) : w ∈ splitWords text := by
  have h := splitSent_words text [] false (by simp)
  unfold splitSentences at hs
  rw [List.reverse_nil, List.nil_append] at h
  rw [← h]
  exact List.mem_flatMap.mpr ⟨s, hs, hw⟩

/-!  Chunk length bounds (claims C1 and C8). -/


theorem chunksMin_append {p : PDFProcessor} {cs : List Chunk} {c : Chunk}
    (h : chunksMin p cs) (hc : p.min_chunk_length ≤ c.text.length) :
    chunksMin p (cs ++ [c]) := by
  intro d hd
  rcases List.mem_append.mp hd with h1 | h1
  · exact h d h1
  · rw [List.mem_singleton.mp h1]; exact hc

theorem packWords_min (p : PDFProcessor) (pn : Nat) (sect : Option (List Char)) :
    ∀ (ws : List (List Char)) (st : ChunkSt), chunksMin p st.chunks →
      chunksMin p (packWords p pn sect st ws).chunks := by
  intro ws
  induction ws with
  | nil => intro st h; exact h
  | cons w ws ih =>
    intro st h
    simp only [packWords]
    by_cases h1 : st.buf ≠ [] ∧ p.max_chunk_length < st.buf.length + w.length + 1
    · rw [if_pos h1]
      by_cases h2 : p.min_chunk_length ≤ (trim st.buf).length
      · rw [if_pos h2]
        exact ih _ (chunksMin_append h h2)
      · rw [if_neg h2]
        exact ih _ h
    · rw [if_neg h1]
      exact ih _ h

/-- The final fallback step of one sentence iteration preserves the
minimum bound. -/
theorem flushFallback_min (p : PDFProcessor) (pn : Nat)
    (sect : Option (List Char)) (st1 : ChunkSt) (h : chunksMin p st1.chunks) :
    chunksMin p ((if p.max_chunk_length < st1.buf.length then
        packWords p pn sect ⟨st1.chunks, [], st1.idx⟩ (splitWords st1.buf)
      else st1)).chunks := by
  by_cases h2 : p.max_chunk_length < st1.buf.length
  · rw [if_pos h2]
    exact packWords_min p pn sect _ _ h
  · rw [if_neg h2]
    exact h

theorem sentStep_min (p : PDFProcessor) (pn : Nat) (sect : Option (List Char))
    (st : ChunkSt) (s0 : List Char) (h : chunksMin p st.chunks) :
    chunksMin p (sentStep p pn sect st s0).chunks := by
  unfold sentStep
  by_cases hs : trim s0 = []
  · rw [if_pos hs]
    exact h
  · rw [if_neg hs]
    refine flushFallback_min p pn sect _ ?_
    by_cases hc : st.buf ≠ [] ∧ p.max_chunk_length < st.buf.length + (trim s0).length + 1
    · rw [if_pos hc]
      by_cases h2 : p.min_chunk_length ≤ (trim st.buf).length
      · rw [if_pos h2]
        exact chunksMin_append h h2
      · rw [if_neg h2]
        exact h
    · rw [if_neg hc]
      exact h

/-- Lower bound of claim C1: every emitted chunk meets
min_chunk_length, for every input and every configuration. -/
theorem chunk_text_min (p : PDFProcessor) (text : List Char) (pn : Nat)
    (sect : Option (List Char)) :
    ∀ c ∈ p.chunk_text text pn sect, p.min_chunk_length ≤ c.text.length := by
  unfold PDFProcessor.chunk_text
  by_cases h0 : text = [] ∨ (trim text).length < p.min_chunk_length
  · rw [if_pos h0]
    intro c hc
    exact absurd hc (List.not_mem_nil c)
  · rw [if_neg h0]
    have hmin : chunksMin p
        ((splitSentences text).foldl (sentStep p pn sect) ⟨[], [], 0⟩).chunks := by
      refine foldl_inv (fun (s : ChunkSt) => chunksMin p s.chunks) _ _ _ ?_ ?_
      · intro c hc
        exact absurd hc (List.not_mem_nil c)
      · intro s a _ hP
        exact sentStep_min p pn sect s a hP
    set st := (splitSentences text).foldl (sentStep p pn sect) ⟨[], [], 0⟩ with hst
    by_cases h1 : st.buf ≠ [] ∧ p.min_chunk_length ≤ (trim st.buf).length
    · rw [if_pos h1]
      exact chunksMin_append hmin h1.2
    · rw [if_neg h1]
      exact hmin



theorem splitWords_elems {l : List Char} :
    ∀ w ∈ splitWords l, w ≠ [] ∧ ∀ c ∈ w, isSpaceChar c = false := by
  intro w hw
  exact swAux_elems l [] (by simp) w hw

theorem wordsLe_single {B : Nat} {w : List Char} (hne : w ≠ [])
    (hns : ∀ c ∈ w, isSpaceChar c = false) (hlen : w.length ≤ B) : wordsLe B w := by
  intro x hx
  rw [splitWords_single hne hns] at hx
  rw [List.mem_singleton.mp hx]
  exact hlen

theorem wordsLe_append {B : Nat} {a s : List Char} (ha : wordsLe B a)
    (hs : wordsLe B s) : wordsLe B (a ++ ' ' :: s) := by
  intro x hx
  unfold splitWords at hx
  rw [swAux_append_sep (by decide) a [] s] at hx
  rcases List.mem_append.mp hx with h | h
  · exact ha x h
  · exact hs x h

theorem chunksMax_append {p : PDFProcessor} {cs : List Chunk} {c : Chunk}
    (h : ∀ d ∈ cs, d.text.length ≤ p.max_chunk_length)
    (hc : c.text.length ≤ p.max_chunk_length) :
    ∀ d ∈ cs ++ [c], d.text.length ≤ p.max_chunk_length := by
  intro d hd
  rcases List.mem_append.mp hd with h1 | h1
  · exact h d h1
  · rw [List.mem_singleton.mp h1]
    exact hc

theorem packWords_upper (p : PDFProcessor) (pn : Nat) (sect : Option (List Char)) :
    ∀ (ws : List (List Char)) (st : ChunkSt),
      (∀ w ∈ ws, w.length ≤ p.max_chunk_length ∧ w ≠ [] ∧
        ∀ c ∈ w, isSpaceChar c = false) →
      stUpper p st → stUpper p (packWords p pn sect st ws) := by
  intro ws
  induction ws with
  | nil => intro st _ h; exact h
  | cons w ws ih =>
    intro st hws h
    have hw := hws w (List.mem_cons_self w ws)
    have hws2 : ∀ v ∈ ws, v.length ≤ p.max_chunk_length ∧ v ≠ [] ∧
        ∀ c ∈ v, isSpaceChar c = false :=
      fun v hv => hws v (List.mem_cons_of_mem w hv)
    have hbufw : stUpper p (⟨st.chunks, w, st.idx⟩ : ChunkSt) :=
      ⟨h.1, hw.1, wordsLe_single hw.2.1 hw.2.2 hw.1⟩
    simp only [packWords]
    by_cases h1 : st.buf ≠ [] ∧ p.max_chunk_length < st.buf.length + w.length + 1
    · rw [if_pos h1]
      by_cases h2 : p.min_chunk_length ≤ (trim st.buf).length
      · rw [if_pos h2]
        refine ih _ hws2 ⟨?_, hbufw.2⟩
        exact chunksMax_append h.1 (Nat.le_trans (trim_length_le st.buf) h.2.1)
      · rw [if_neg h2]
        exact ih _ hws2 hbufw
    · rw [if_neg h1]
      refine ih _ hws2 ?_
      by_cases hb : st.buf = []
      · rw [if_pos hb]
        exact hbufw
      · rw [if_neg hb]
        have hle : st.buf.length + w.length + 1 ≤ p.max_chunk_length := by
          rcases not_and_or.mp h1 with hx | hx
          · exact absurd hb hx
          · omega
        refine ⟨h.1, ?_,
          wordsLe_append h.2.2 (wordsLe_single hw.2.1 hw.2.2 hw.1)⟩
        simp only [List.length_append, List.length_cons]
        omega

theorem flushFallback_upper (p : PDFProcessor) (pn : Nat)
    (sect : Option (List Char)) (st1 : ChunkSt)
    (hch : ∀ c ∈ st1.chunks, c.text.length ≤ p.max_chunk_length)
    (hwords : wordsLe p.max_chunk_length st1.buf) :
    stUpper p (if p.max_chunk_length < st1.buf.length then
        packWords p pn sect ⟨st1.chunks, [], st1.idx⟩ (splitWords st1.buf)
      else st1) := by
  by_cases h2 : p.max_chunk_length < st1.buf.length
  · rw [if_pos h2]
    refine packWords_upper p pn sect _ _ ?_ ?_
    · intro w hw
      exact ⟨hwords w hw, (splitWords_elems w hw).1, (splitWords_elems w hw).2⟩
    · refine ⟨hch, Nat.zero_le _, ?_⟩
      intro w hw
      simp [splitWords, swAux] at hw
  · rw [if_neg h2]
    exact ⟨hch, Nat.le_of_not_lt h2, hwords⟩

theorem sentStep_upper (p : PDFProcessor) (pn : Nat) (sect : Option (List Char))
    (st : ChunkSt) (s0 : List Char) (hs : wordsLe p.max_chunk_length (trim s0))
    (h : stUpper p st) : stUpper p (sentStep p pn sect st s0) := by
  unfold sentStep
  by_cases hse : trim s0 = []
  · rw [if_pos hse]
    exact h
  · rw [if_neg hse]
    refine flushFallback_upper p pn sect _ ?_ ?_
    · by_cases hc : st.buf ≠ [] ∧ p.max_chunk_length < st.buf.length + (trim s0).length + 1
      · rw [if_pos hc]
        by_cases h2 : p.min_chunk_length ≤ (trim st.buf).length
        · rw [if_pos h2]
          exact chunksMax_append h.1 (Nat.le_trans (trim_length_le st.buf) h.2.1)
        · rw [if_neg h2]
          exact h.1
      · rw [if_neg hc]
        exact h.1
    · by_cases hc : st.buf ≠ [] ∧ p.max_chunk_length < st.buf.length + (trim s0).length + 1
      · rw [if_pos hc]
        by_cases h2 : p.min_chunk_length ≤ (trim st.buf).length
        · rw [if_pos h2]
          exact hs
        · rw [if_neg h2]
          exact hs
      · rw [if_neg hc]
        by_cases hb : st.buf = []
        · rw [if_pos hb]
          exact hs
        · rw [if_neg hb]
          exact wordsLe_append h.2.2 hs

/-- Upper bound of claim C1, conditional on every whitespace-delimited
word of the input being at most max_chunk_length long. -/
theorem chunk_text_upper (p : PDFProcessor) (text : List Char) (pn : Nat)
    (sect : Option (List Char)) (hw : wordsLe p.max_chunk_length text) :
    ∀ c ∈ p.chunk_text text pn sect, c.text.length ≤ p.max_chunk_length := by
  unfold PDFProcessor.chunk_text
  by_cases h0 : text = [] ∨ (trim text).length < p.min_chunk_length
  · rw [if_pos h0]
    intro c hc
    exact absurd hc (List.not_mem_nil c)
  · rw [if_neg h0]
    have hup : stUpper p
        ((splitSentences text).foldl (sentStep p pn sect) ⟨[], [], 0⟩) := by
      refine foldl_inv (fun (s : ChunkSt) => stUpper p s) _ _ _ ?_ ?_
      · refine ⟨?_, Nat.zero_le _, ?_⟩
        · intro c hc
          exact absurd hc (List.not_mem_nil c)
        · intro w hwm
          simp [splitWords, swAux] at hwm
      · intro s a ha hP
        refine sentStep_upper p pn sect s a ?_ hP
        intro w hwm
        rw [splitWords_trim] at hwm
        exact hw w (word_of_sentence ha hwm)
    set st := (splitSentences text).foldl (sentStep p pn sect) ⟨[], [], 0⟩ with hst
    by_cases h1 : st.buf ≠ [] ∧ p.min_chunk_length ≤ (trim st.buf).length
    · rw [if_pos h1]
      exact chunksMax_append hup.1 (Nat.le_trans (trim_length_le st.buf) hup.2.1)
    · rw [if_neg h1]
      exact hup.1

/-!  Global renumbering and the page loop (claims C2, C3, C4). -/

theorem renumber_map_idx :
    ∀ (cs : List Chunk) (g : Nat),
      (renumber g cs).map Chunk.chunk_index = List.range' g cs.length := by
  intro cs
  induction cs with
  | nil => intro g; rfl
  | cons c cs ih =>
    intro g
    simp only [renumber, List.map_cons, List.length_cons, List.range'_succ]
    rw [ih (g + 1)]

theorem renumber_length : ∀ (cs : List Chunk) (g : Nat),
    (renumber g cs).length = cs.length := by
  intro cs
  induction cs with
  | nil => intro g; rfl
  | cons c cs ih => intro g; simp [renumber, ih]

theorem renumber_text_mem : ∀ (cs : List Chunk) (g : Nat),
    ∀ c ∈ renumber g cs, ∃ d ∈ cs, c.text = d.text := by
  intro cs
  induction cs with
  | nil => intro g c hc; exact absurd hc (List.not_mem_nil c)
  | cons d cs ih =>
    intro g c hc
    rcases List.mem_cons.mp hc with h | h
    · exact ⟨d, List.mem_cons_self d cs, by rw [h]⟩
    · rcases ih (g + 1) c h with ⟨e, he, hte⟩
      exact ⟨e, List.mem_cons_of_mem d he, hte⟩

/-- The fold of the page loop keeps the invariant that the emitted
chunk indices are exactly 0..N-1 and the counter equals N. -/
theorem pageFold_idx (p : PDFProcessor) (pages : List (List Char × Nat)) :
    (pages.foldl (pageStep p) ([], 0)).1.map Chunk.chunk_index =
      List.range' 0 (pages.foldl (pageStep p) ([], 0)).1.length ∧
    (pages.foldl (pageStep p) ([], 0)).2 =
      (pages.foldl (pageStep p) ([], 0)).1.length := by
  refine foldl_inv
    (fun (st : List Chunk × Nat) =>
      st.1.map Chunk.chunk_index = List.range' 0 st.1.length ∧ st.2 = st.1.length)
    _ _ _ ⟨rfl, rfl⟩ ?_
  intro st a _ hP
  unfold pageStep
  constructor
  · simp only [List.map_append, List.length_append]
    rw [hP.1, renumber_map_idx, renumber_length, hP.2]
    have := List.range'_append 0 st.1.length (pageChunks p a).length 1
    simp only [Nat.one_mul, Nat.zero_add] at this
    rw [this, Nat.add_comm]
  · simp only [List.length_append, renumber_length]
    rw [hP.2]

/-- Chunk indices of one whole processed document are exactly 0..N-1 in
emission order. -/
theorem process_pages_idx (p : PDFProcessor) (pages : List (List Char × Nat)) :
    (process_pages p pages).map Chunk.chunk_index =
      List.range (process_pages p pages).length := by
  unfold process_pages
  cases pages with
  | nil => rfl
  | cons pg pages =>
    rw [List.range_eq_range']
    exact (pageFold_idx p (pg :: pages)).1

theorem pageChunks_min (p : PDFProcessor) (pg : List Char × Nat) :
    ∀ c ∈ pageChunks p pg, p.min_chunk_length ≤ c.text.length := by
  unfold pageChunks
  by_cases h : p.preprocess_text pg.1 = [] ∨
      (trim (p.preprocess_text pg.1)).length < p.min_chunk_length
  · rw [if_pos h]
    intro c hc
    exact absurd hc (List.not_mem_nil c)
  · rw [if_neg h]
    exact chunk_text_min p _ pg.2 _

theorem pageChunks_max (p : PDFProcessor) (pg : List Char × Nat)
    (hw : wordsLe p.max_chunk_length (p.preprocess_text pg.1)) :
    ∀ c ∈ pageChunks p pg, c.text.length ≤ p.max_chunk_length := by
  unfold pageChunks
  by_cases h : p.preprocess_text pg.1 = [] ∨
      (trim (p.preprocess_text pg.1)).length < p.min_chunk_length
  · rw [if_pos h]
    intro c hc
    exact absurd hc (List.not_mem_nil c)
  · rw [if_neg h]
    exact chunk_text_upper p _ pg.2 _ hw

/-- The whole-document lower length bound. -/
theorem process_pages_min (p : PDFProcessor) (pages : List (List Char × Nat)) :
    ∀ c ∈ process_pages p pages, p.min_chunk_length ≤ c.text.length := by
  unfold process_pages
  cases pages with
  | nil => intro c hc; exact absurd hc (List.not_mem_nil c)
  | cons pg pages =>
    refine foldl_inv
      (fun (st : List Chunk × Nat) => ∀ c ∈ st.1, p.min_chunk_length ≤ c.text.length)
      _ _ _ ?_ ?_
    · intro c hc; exact absurd hc (List.not_mem_nil c)
    · intro st a _ hP
      unfold pageStep
      intro c hc
      rcases List.mem_append.mp hc with h | h
      · exact hP c h
      · rcases renumber_text_mem _ _ c h with ⟨d, hd, ht⟩
        rw [ht]
        exact pageChunks_min p a d hd

/-- The whole-document upper length bound, conditional on the word
bound for every cleaned page. -/
theorem process_pages_max (p : PDFProcessor) (pages : List (List Char × Nat))
    (hw : ∀ pg ∈ pages, wordsLe p.max_chunk_length (p.preprocess_text pg.1)) :
    ∀ c ∈ process_pages p pages, c.text.length ≤ p.max_chunk_length := by
  unfold process_pages
  cases pages with
  | nil => intro c hc; exact absurd hc (List.not_mem_nil c)
  | cons pg pages =>
    refine foldl_inv
      (fun (st : List Chunk × Nat) => ∀ c ∈ st.1, c.text.length ≤ p.max_chunk_length)
      _ _ _ ?_ ?_
    · intro c hc; exact absurd hc (List.not_mem_nil c)
    · intro st a ha hP
      unfold pageStep
      intro c hc
      rcases List.mem_append.mp hc with h | h
      · exact hP c h
      · rcases renumber_text_mem _ _ c h with ⟨d, hd, ht⟩
        rw [ht]
        exact pageChunks_max p a (hw a ha) d hd

/-- When no page contributes a chunk the document result is empty. -/
theorem process_pages_empty (p : PDFProcessor) (pages : List (List Char × Nat))
    (h : ∀ pg ∈ pages, pageChunks p pg = []) : process_pages p pages = [] := by
  unfold process_pages
  cases pages with
  | nil => rfl
  | cons pg pages =>
    have : ((pg :: pages).foldl (pageStep p) ([], 0)).1 = [] := by
      refine foldl_inv (fun (st : List Chunk × Nat) => st.1 = []) _ _ _ rfl ?_
      intro st a ha hP
      unfold pageStep
      rw [h a ha]
      simp [renumber, hP]
    exact this

/-!  Extraction lemmas (claims C3 and C10). -/

/-- Every page kept by the per-page extraction loop has non-whitespace
text. -/
theorem extractPagesAux_nonws :
    ∀ (raws : List (Option (List Char))) (n : Nat) (pr : List Char × Nat),
      pr ∈ extractPagesAux n raws → trim pr.1 ≠ [] := by
  intro raws
  induction raws with
  | nil => intro n pr h; exact absurd h (List.not_mem_nil pr)
  | cons r raws ih =>
    intro n pr h
    cases r with
    | none => exact ih (n + 1) pr h
    | some t =>
      simp only [extractPagesAux] at h
      by_cases ht : trim t = []
      · rw [if_pos ht] at h
        exact ih (n + 1) pr h
      · rw [if_neg ht] at h
        rcases List.mem_cons.mp h with h1 | h1
        · rw [h1]
          exact ht
        · exact ih (n + 1) pr h1

/-- Pages that are all whitespace are all dropped. -/
theorem extractPagesAux_ws_empty :
    ∀ (raws : List (Option (List Char))) (n : Nat),
      (∀ t, some t ∈ raws → trim t = []) → extractPagesAux n raws = [] := by
  intro raws
  induction raws with
  | nil => intro n _; rfl
  | cons r raws ih =>
    intro n h
    cases r with
    | none =>
      exact ih (n + 1) (fun t ht => h t (List.mem_cons_of_mem none ht))
    | some t =>
      simp only [extractPagesAux]
      rw [if_pos (h t (List.mem_cons_self (some t) raws))]
      exact ih (n + 1) (fun u hu => h u (List.mem_cons_of_mem (some t) hu))

/-- Whenever extraction returns successfully, the page list is nonempty
and every page has non-whitespace text. -/
theorem tryPyPdf2_shape (avail : Bool)
    (res : Except String (List (Option (List Char))))
    (r : List (List Char × Nat)) (h : tryPyPdf2 avail res = some r) :
    r ≠ [] ∧ ∀ pr ∈ r, trim pr.1 ≠ [] := by
  unfold tryPyPdf2 at h
  cases avail with
  | false => simp at h
  | true =>
    cases res with
    | error e => simp at h
    | ok raws =>
      cases hq : extractPages raws with
      | nil => simp [hq] at h
      | cons q qs =>
        simp only [if_true, hq] at h
        injection h with h2
        rw [← h2]
        constructor
        · simp
        · intro pr hpr
          rw [← hq] at hpr
          exact extractPagesAux_nonws raws 1 pr hpr

/-- Whenever extraction returns successfully, the page list is nonempty
and every page has non-whitespace text. -/
theorem extract_ok_shape (p2avail pmavail : Bool)
    (p2 pm : Except String (List (Option (List Char))))
    (pages : List (List Char × Nat))
    (h : extract_text_from_pdf p2avail p2 pmavail pm = Except.ok pages) :
    pages ≠ [] ∧ ∀ pr ∈ pages, trim pr.1 ≠ [] := by
  unfold extract_text_from_pdf at h
  cases htb : tryPyPdf2 p2avail p2 with
  | some r =>
    rw [htb] at h
    injection h with h2
    rw [← h2]
    exact tryPyPdf2_shape p2avail p2 r htb
  | none =>
    rw [htb] at h
    cases pmavail with
    | false => simp at h
    | true =>
      cases pm with
      | error e => simp at h
      | ok raws =>
        cases hq : extractPages raws with
        | nil => simp [hq] at h
        | cons q qs =>
          simp only [if_true, hq] at h
          injection h with h2
          rw [← h2]
          constructor
          · simp
          · intro pr hpr
            rw [← hq] at hpr
            exact extractPagesAux_nonws raws 1 pr hpr

/-!  Single-space shape of collapsed text and the no-op broken-word
substitution (claim C9). -/


theorem wsOk_suffix {l t : List Char} (h : wsOk l) (ht : t <:+ l) : wsOk t :=
  ⟨fun c hc => h.1 c (ht.subset hc), h.2.suffix ht⟩

theorem wsOk_within {l t : List Char} (h : wsOk l) (ht : t <:+: l) : wsOk t :=
  ⟨fun c hc => h.1 c (ht.subset hc), List.Chain'.infix h.2 ht⟩


theorem headNotWs_dropWhile (l : List Char) :
    headNotWs (l.dropWhile isSpaceChar) := by
  cases h : l.dropWhile isSpaceChar with
  | nil => exact trivial
  | cons x xs =>
    have hh := List.head?_dropWhile_not isSpaceChar l
    rw [h] at hh
    exact hh

/-- The whitespace-collapse substitution produces single-space text and
keeps a non-whitespace head. -/
theorem collapse_shape :
    ∀ (fuel : Nat) (l : List Char), l.length ≤ fuel →
      wsOk (reSubF wsRunM fuel l) ∧
        (headNotWs l → headNotWs (reSubF wsRunM fuel l)) := by
  intro fuel
  induction fuel with
  | zero =>
    intro l hl
    have : l = [] := List.length_eq_zero.mp (Nat.le_zero.mp hl)
    rw [this]
    exact ⟨⟨fun c hc _ => absurd hc (List.not_mem_nil c), List.chain'_nil⟩,
      fun h => h⟩
  | succ fuel ih =>
    intro l hl
    cases l with
    | nil =>
      exact ⟨⟨fun c hc _ => absurd hc (List.not_mem_nil c), List.chain'_nil⟩,
        fun h => h⟩
    | cons c cs =>
      by_cases hws : isSpaceChar c = true
      · have hm : wsRunM (c :: cs) =
            some ([' '], (c :: cs).dropWhile isSpaceChar) := by
          unfold wsRunM
          rw [List.takeWhile_cons_of_pos hws]
        have hrest : (c :: cs).dropWhile isSpaceChar = cs.dropWhile isSpaceChar :=
          List.dropWhile_cons_of_pos hws
        have hlen : (cs.dropWhile isSpaceChar).length ≤ fuel :=
          Nat.le_trans (dropWhile_isSuffix isSpaceChar cs).length_le
            (Nat.le_of_succ_le_succ hl)
        have IH := ih (cs.dropWhile isSpaceChar) hlen
        have hout : reSubF wsRunM (fuel + 1) (c :: cs) =
            ' ' :: reSubF wsRunM fuel (cs.dropWhile isSpaceChar) := by
          simp only [reSubF, hm, hrest]
          rfl
        rw [hout]
        have hh2 : headNotWs (reSubF wsRunM fuel (cs.dropWhile isSpaceChar)) :=
          IH.2 (headNotWs_dropWhile cs)
        constructor
        · constructor
          · intro d hd hwsd
            rcases List.mem_cons.mp hd with h1 | h1
            · exact h1
            · exact IH.1.1 d h1 hwsd
          · cases hout2 : reSubF wsRunM fuel (cs.dropWhile isSpaceChar) with
            | nil => exact List.chain'_singleton _
            | cons x xs =>
              refine List.chain'_cons.mpr ⟨?_, ?_⟩
              · intro hand
                rw [hout2] at hh2
                rw [hh2] at hand
                exact absurd hand.2 (by simp)
              · have := IH.1.2
                rwa [hout2] at this
        · intro hh
          exact absurd hh (by simp [headNotWs, hws])
      · have hm : wsRunM (c :: cs) = none := by
          unfold wsRunM
          rw [List.takeWhile_cons_of_neg (by simp [hws])]
        have IH := ih cs (Nat.le_of_succ_le_succ hl)
        have hout : reSubF wsRunM (fuel + 1) (c :: cs) =
            c :: reSubF wsRunM fuel cs := by
          simp only [reSubF, hm]
        rw [hout]
        constructor
        · constructor
          · intro d hd hwsd
            rcases List.mem_cons.mp hd with h1 | h1
            · rw [h1] at hwsd
              exact absurd hwsd hws
            · exact IH.1.1 d h1 hwsd
          · cases hout2 : reSubF wsRunM fuel cs with
            | nil => exact List.chain'_singleton _
            | cons x xs =>
              refine List.chain'_cons.mpr ⟨?_, ?_⟩
              · intro hand
                exact absurd hand.1 hws
              · have := IH.1.2
                rwa [hout2] at this
        · intro _
          show isSpaceChar c = false
          exact Bool.eq_false_iff.mpr hws

theorem wsOk_collapse (l : List Char) : wsOk (collapseWs l) :=
  (collapse_shape l.length l (Nat.le_refl _)).1

theorem wsOk_trim {l : List Char} (h : wsOk l) : wsOk (trim l) :=
  wsOk_within h (trim_within l)

/-- In single-space text a nonempty leading whitespace run is exactly
one space. -/
theorem wsOk_takeWhile_space {r1 : List Char} (h : wsOk r1)
    (hne : r1.takeWhile isSpaceChar ≠ []) :
    r1.takeWhile isSpaceChar = [' '] := by
  cases hseq : r1.takeWhile isSpaceChar with
  | nil => exact absurd hseq hne
  | cons a s2 =>
    have hmem : a ∈ r1.takeWhile isSpaceChar := by
      rw [hseq]
      exact List.mem_cons_self a s2
    have haws : isSpaceChar a = true := mem_takeWhile hmem
    have hain : a ∈ r1 := by
      rw [← List.takeWhile_append_dropWhile isSpaceChar r1]
      exact List.mem_append_left _ hmem
    have ha : a = ' ' := h.1 a hain haws
    cases hseq2 : s2 with
    | nil => rw [ha]
    | cons b s3 =>
      have hbmem : b ∈ r1.takeWhile isSpaceChar := by
        rw [hseq, hseq2]
        exact List.mem_cons_of_mem a (List.mem_cons_self b s3)
      have hbws : isSpaceChar b = true := mem_takeWhile hbmem
      have hr1 : r1 = a :: b :: (s3 ++ r1.dropWhile isSpaceChar) := by
        conv_lhs => rw [← List.takeWhile_append_dropWhile isSpaceChar r1]
        rw [hseq, hseq2]
        simp
      have hch := h.2
      rw [hr1] at hch
      exact absurd ⟨haws, hbws⟩ (List.chain'_cons.mp hch).1

/-- A successful broken-word match on single-space text reproduces the
matched region exactly, and the remainder is a suffix. -/
theorem brokenPairM_some (l rep rest : List Char) (hws : wsOk l)
    (h : brokenPairM l = some (rep, rest)) :
    rep ++ rest = l ∧ rest <:+ l := by
  unfold brokenPairM at h
  by_cases hA : ((l.takeWhile isWordChar).isEmpty ||
      ((l.dropWhile isWordChar).takeWhile isSpaceChar).isEmpty ||
      (((l.dropWhile isWordChar).dropWhile isSpaceChar).takeWhile isWordChar).isEmpty) = true
  · rw [if_pos hA] at h
    exact absurd h (by simp)
  · rw [if_neg hA] at h
    simp only [Option.some.injEq, Prod.mk.injEq] at h
    have hA2 := hA
    simp only [Bool.or_eq_true, List.isEmpty_iff, not_or] at hA2
    have hwsr1 : wsOk (l.dropWhile isWordChar) :=
      wsOk_suffix hws (dropWhile_isSuffix isWordChar l)
    have hsone : (l.dropWhile isWordChar).takeWhile isSpaceChar = [' '] :=
      wsOk_takeWhile_space hwsr1 hA2.1.2
    rw [hsone] at h
    simp only [List.append_assoc, List.singleton_append, ite_self] at h
    constructor
    · rw [← h.1, ← h.2]
      rw [List.append_assoc, List.cons_append]
      have e3 : ((l.dropWhile isWordChar).dropWhile isSpaceChar).takeWhile isWordChar ++
          ((l.dropWhile isWordChar).dropWhile isSpaceChar).dropWhile isWordChar =
          (l.dropWhile isWordChar).dropWhile isSpaceChar :=
        List.takeWhile_append_dropWhile isWordChar _
      rw [e3]
      have e2 : ' ' :: (l.dropWhile isWordChar).dropWhile isSpaceChar =
          l.dropWhile isWordChar := by
        have e4 := List.takeWhile_append_dropWhile isSpaceChar (l.dropWhile isWordChar)
        rw [hsone] at e4
        simpa using e4
      rw [e2]
      exact List.takeWhile_append_dropWhile isWordChar l
    · rw [← h.2]
      exact ((dropWhile_isSuffix isWordChar _).trans
        (dropWhile_isSuffix isSpaceChar _)).trans (dropWhile_isSuffix isWordChar l)

/-- On single-space text the broken-word substitution of line 198 is the
identity: the whitespace between the two matched words is always one
space, so both branches of the conditional replacement reproduce the
match. -/
theorem broken_id :
    ∀ (fuel : Nat) (l : List Char), wsOk l → reSubF brokenPairM fuel l = l := by
  intro fuel
  induction fuel with
  | zero => intro l _; rfl
  | succ fuel ih =>
    intro l hws
    cases l with
    | nil => rfl
    | cons c cs =>
      cases hm : brokenPairM (c :: cs) with
      | none =>
        simp only [reSubF, hm]
        rw [ih cs (wsOk_suffix hws ⟨[c], rfl⟩)]
      | some pr =>
        obtain ⟨rep, rest⟩ := pr
        have hsp := brokenPairM_some (c :: cs) rep rest hws hm
        simp only [reSubF, hm]
        rw [ih rest (wsOk_suffix hws hsp.2)]
        exact hsp.1

/-!  The enumerator substitution is the identity (claim C7). -/

/-- A successful enumerator match reproduces the matched region: the
replacement (\1) equals the match \(([a-z0-9]+)\). -/
theorem enumM_some {l rep rest : List Char} (h : enumM l = some (rep, rest)) :
    rep ++ rest = l := by
  unfold enumM at h
  split at h
  · rename_i r1
    split at h
    · rename_i rest1 hr2
      by_cases he : (r1.takeWhile isLowerDigit).isEmpty = true
      · rw [if_pos he] at h
        exact absurd h (by simp)
      · rw [if_neg he] at h
        simp only [Option.some.injEq, Prod.mk.injEq] at h
        rw [← h.1, ← h.2]
        have hdec : r1.takeWhile isLowerDigit ++ r1.dropWhile isLowerDigit = r1 :=
          List.takeWhile_append_dropWhile isLowerDigit r1
        rw [hr2] at hdec
        simp only [List.cons_append, List.append_assoc, List.singleton_append,
          List.nil_append]
        rw [hdec]
    · exact absurd h (by simp)
  · exact absurd h (by simp)

/-- The enumerator substitution of line 211 never changes its input. -/
theorem enum_id : ∀ (fuel : Nat) (l : List Char), reSubF enumM fuel l = l := by
  intro fuel
  induction fuel with
  | zero => intro l; rfl
  | succ fuel ih =>
    intro l
    cases l with
    | nil => rfl
    | cons c cs =>
      cases hm : enumM (c :: cs) with
      | none =>
        simp only [reSubF, hm]
        rw [ih cs]
      | some pr =>
        obtain ⟨rep, rest⟩ := pr
        simp only [reSubF, hm]
        rw [ih rest]
        exact enumM_some hm

/-!  The hyphenation repair (claim C6). -/

theorem word_not_space {c : Char} (h : isWordChar c = true) :
    isSpaceChar c = false := by
  cases hb : isSpaceChar c
  · rfl
  · exfalso
    unfold isSpaceChar at hb
    simp only [Bool.or_eq_true, beq_iff_eq] at hb
    rcases hb with ((((h1 | h1) | h1) | h1) | h1) | h1 <;>
      (subst h1; exact absurd h (by decide))

theorem reSubF_nil (m : List Char → Option (List Char × List Char)) :
    ∀ fuel : Nat, reSubF m fuel [] = [] := by
  intro fuel
  cases fuel <;> rfl

/-- A word, a hyphen, line-wrap whitespace and a second word: the
hyphenation matcher fires and glues the two words together. -/
theorem hyphenM_merge (w1 s w2 : List Char) (hw1 : w1 ≠ []) (hw2 : w2 ≠ [])
    (hs : s ≠ []) (a1 : ∀ c ∈ w1, isWordChar c = true)
    (a2 : ∀ c ∈ w2, isWordChar c = true) (as : ∀ c ∈ s, isSpaceChar c = true) :
    hyphenM (w1 ++ '-' :: (s ++ w2)) = some (w1 ++ w2, []) := by
  obtain ⟨b, w2t, rfl⟩ : ∃ b t, w2 = b :: t := by
    cases w2 with
    | nil => exact absurd rfl hw2
    | cons b t => exact ⟨b, t, rfl⟩
  have hbs : isSpaceChar b = false :=
    word_not_space (a2 b (List.mem_cons_self b w2t))
  have ht1 : (w1 ++ '-' :: (s ++ b :: w2t)).takeWhile isWordChar = w1 :=
    takeWhile_app_stop (by decide) w1 _ a1
  have hd1 : (w1 ++ '-' :: (s ++ b :: w2t)).dropWhile isWordChar =
      '-' :: (s ++ b :: w2t) :=
    dropWhile_app_stop (by decide) w1 _ a1
  have ht2 : (s ++ b :: w2t).takeWhile isSpaceChar = s :=
    takeWhile_app_stop hbs s w2t as
  have hd2 : (s ++ b :: w2t).dropWhile isSpaceChar = b :: w2t :=
    dropWhile_app_stop hbs s w2t as
  have ht3 : (b :: w2t).takeWhile isWordChar = b :: w2t := takeWhile_all a2
  have hd3 : (b :: w2t).dropWhile isWordChar = [] := dropWhile_all a2
  unfold hyphenM
  rw [ht1, hd1]
  rw [if_neg (by simp [List.isEmpty_iff, hw1])]
  dsimp only
  rw [if_pos rfl]
  rw [ht2, hd2, ht3, hd3]
  rw [if_neg (by simp [List.isEmpty_iff, hs])]

/-- The hyphen substitution on a single broken word rejoins it. -/
theorem hyphen_sub_merge (w1 s w2 : List Char) (hw1 : w1 ≠ []) (hw2 : w2 ≠ [])
    (hs : s ≠ []) (a1 : ∀ c ∈ w1, isWordChar c = true)
    (a2 : ∀ c ∈ w2, isWordChar c = true) (as : ∀ c ∈ s, isSpaceChar c = true) :
    subAll hyphenM (w1 ++ '-' :: (s ++ w2)) = w1 ++ w2 := by
  obtain ⟨c, w1t, rfl⟩ : ∃ c t, w1 = c :: t := by
    cases w1 with
    | nil => exact absurd rfl hw1
    | cons c t => exact ⟨c, t, rfl⟩
  have hmm := hyphenM_merge (c :: w1t) s w2 hw1 hw2 hs a1 a2 as
  unfold subAll
  rw [List.cons_append, List.length_cons]
  simp only [reSubF]
  rw [← List.cons_append, hmm]
  simp [reSubF_nil]

/-!  Symbolic evaluation of chunk_text on one oversized word (used for
the counterexamples to claims C1 and C8, where direct evaluation of a
2000-plus character string is out of reach). -/

theorem dropWhile_none {p : α → Bool} :
    ∀ {l : List α}, (∀ c ∈ l, p c = false) → l.dropWhile p = l
  | [], _ => rfl
  | c :: cs, h =>
    List.dropWhile_cons_of_neg (by simp [h c (List.mem_cons_self c cs)])

theorem trim_id {l : List Char} (h : ∀ c ∈ l, isSpaceChar c = false) :
    trim l = l := by
  unfold trim
  rw [dropWhile_none h]
  rw [dropWhile_none (fun c hc => h c (List.mem_reverse.mp hc))]
  exact List.reverse_reverse l

theorem splitSentAux_nosplit :
    ∀ (l acc : List Char), (∀ c ∈ l, isSentEnd c = false) →
      headSentEnd acc = false → splitSentAux l acc false = [acc.reverse ++ l] := by
  intro l
  induction l with
  | nil => intro acc _ _; simp [splitSentAux]
  | cons c cs ih =>
    intro acc hl hacc
    have hcond : (isSpaceChar c && headSentEnd acc) = false := by
      rw [hacc]
      simp
    simp only [splitSentAux, hcond, Bool.false_eq_true, if_false]
    rw [ih (c :: acc)
      (fun d hd => hl d (List.mem_cons_of_mem c hd))
      (hl c (List.mem_cons_self c cs))]
    simp

/-- A text without sentence-end punctuation is a single sentence. -/
theorem splitSentences_nosplit {l : List Char}
    (h : ∀ c ∈ l, isSentEnd c = false) : splitSentences l = [l] := by
  unfold splitSentences
  rw [splitSentAux_nosplit l [] h rfl]
  simp

/-- chunk_text on a single whitespace-free oversized word: the word
level fallback receives the whole text as one word, cannot split it,
and the final flush emits it unchanged as one oversized chunk. -/
theorem chunk_text_single_word (p : PDFProcessor) (w : List Char) (pn : Nat)
    (sect : Option (List Char)) (hw : ∀ c ∈ w, isSpaceChar c = false)
    (hsent : ∀ c ∈ w, isSentEnd c = false) (hne : w ≠ [])
    (hmin : p.min_chunk_length ≤ w.length)
    (hmax : p.max_chunk_length < w.length) :
    p.chunk_text w pn sect = [⟨w, pn, sect, 0⟩] := by
  have htr : trim w = w := trim_id hw
  have hstep : sentStep p pn sect ⟨[], [], 0⟩ w = ⟨[], w, 0⟩ := by
    unfold sentStep
    rw [htr]
    rw [if_neg hne]
    simp [hmax, packWords, splitWords_single hne hw]
  unfold PDFProcessor.chunk_text
  rw [if_neg (by simp [hne, htr, Nat.not_lt, hmin])]
  rw [splitSentences_nosplit hsent]
  rw [List.foldl_cons, List.foldl_nil, hstep]
  rw [if_pos ⟨hne, by rw [htr]; exact hmin⟩]
  rw [htr]
  simp

/-!  The broken-word substitution over a whole single-space string. -/

theorem subAll_broken_id (l : List Char) (h : wsOk l) :
    subAll brokenPairM l = l :=
  broken_id l.length l h

/-!  Claim theorems. -/

/-- C1 (amended): every chunk emitted by chunk_text, and hence by
process_pdf, has text of length at least 50; its length is also at most
2000 provided every whitespace-delimited token of the (cleaned) input
is at most 2000 characters long.  Without that proviso the upper bound
fails (see the counterexample): a single whitespace-free run longer
than 2000 characters is emitted as one oversized chunk. -/
theorem claim_C1_amended :
    (∀ (text : List Char) (pn : Nat) (sect : Option (List Char)),
        ∀ c ∈ defaultProcessor.chunk_text text pn sect, 50 ≤ c.text.length) ∧
    (∀ (text : List Char) (pn : Nat) (sect : Option (List Char)),
        (∀ w ∈ splitWords text, w.length ≤ 2000) →
        ∀ c ∈ defaultProcessor.chunk_text text pn sect, c.text.length ≤ 2000) ∧
    (∀ pages : List (List Char × Nat),
        ∀ c ∈ process_pages defaultProcessor pages, 50 ≤ c.text.length) ∧
    (∀ pages : List (List Char × Nat),
        (∀ pg ∈ pages, ∀ w ∈ splitWords (defaultProcessor.preprocess_text pg.1),
          w.length ≤ 2000) →
        ∀ c ∈ process_pages defaultProcessor pages, c.text.length ≤ 2000) :=
  ⟨fun text pn sect => chunk_text_min defaultProcessor text pn sect,
   fun text pn sect hw => chunk_text_upper defaultProcessor text pn sect hw,
   fun pages => process_pages_min defaultProcessor pages,
   fun pages hw => process_pages_max defaultProcessor pages hw⟩

/-- C1 witness: a concrete 60-character page whose single chunk obeys
both bounds, at the chunker and at the pipeline level. -/
theorem claim_C1_witness :
    (∀ w ∈ splitWords demoText, w.length ≤ 2000) ∧
    (∀ c ∈ defaultProcessor.chunk_text demoText 1 none,
        50 ≤ c.text.length ∧ c.text.length ≤ 2000) ∧
    (∀ pg ∈ [(demoText, 1)],
        ∀ w ∈ splitWords (defaultProcessor.preprocess_text pg.1), w.length ≤ 2000) ∧
    (∀ c ∈ process_pages defaultProcessor [(demoText, 1)],
        50 ≤ c.text.length ∧ c.text.length ≤ 2000) := by
  have hw : ∀ w ∈ splitWords demoText, w.length ≤ 2000 := by decide
  have hw2 : ∀ pg ∈ [(demoText, 1)],
      ∀ w ∈ splitWords (defaultProcessor.preprocess_text pg.1), w.length ≤ 2000 := by
    decide
  exact ⟨hw,
    fun c hc => ⟨claim_C1_amended.1 demoText 1 none c hc,
      claim_C1_amended.2.1 demoText 1 none hw c hc⟩,
    hw2,
    fun c hc => ⟨claim_C1_amended.2.2.1 [(demoText, 1)] c hc,
      claim_C1_amended.2.2.2 [(demoText, 1)] hw2 c hc⟩⟩

/-- C1 counterexample: for the input of 2050 letters a, chunk_text
emits one chunk of 2050 characters, so the claimed unconditional upper
bound max_chunk_length = 2000 is violated. -/
theorem claim_C1_cex :
    ¬ (∀ c ∈ defaultProcessor.chunk_text (List.replicate 2050 'a') 1 none,
        50 ≤ c.text.length ∧ c.text.length ≤ 2000) := by
  intro hall
  have h := chunk_text_single_word defaultProcessor (List.replicate 2050 'a') 1 none
    (fun c hc => by rw [List.eq_of_mem_replicate hc]; rfl)
    (fun c hc => by rw [List.eq_of_mem_replicate hc]; rfl)
    (by
      intro he
      have h2 := congrArg List.length he
      rw [List.length_replicate, List.length_nil] at h2
      exact absurd h2 (by decide))
    (by rw [List.length_replicate]; decide)
    (by rw [List.length_replicate]; decide)
  have hm := hall ⟨List.replicate 2050 'a', 1, none, 0⟩
    (by rw [h]; exact List.mem_singleton_self _)
  have h2 : (List.replicate 2050 'a').length ≤ 2000 := hm.2
  rw [List.length_replicate] at h2
  exact absurd h2 (by decide)

/-- C2: every successful process_pdf run emits chunk_index values that
are exactly 0..N-1 in emission order, for N the number of emitted
chunks. -/
theorem claim_C2 :
    ∀ (p2a : Bool) (p2 : Except String (List (Option (List Char))))
      (pma : Bool) (pm : Except String (List (Option (List Char))))
      (out : List Chunk),
      defaultProcessor.process_pdf p2a p2 pma pm = Except.ok out →
      out.map Chunk.chunk_index = List.range out.length := by
  intro p2a p2 pma pm out h
  unfold PDFProcessor.process_pdf at h
  cases he : extract_text_from_pdf p2a p2 pma pm with
  | error e =>
    rw [he] at h
    exact absurd h (by simp)
  | ok pages =>
    rw [he] at h
    injection h with h2
    rw [← h2]
    exact process_pages_idx defaultProcessor pages

/-- C2 witness: a two-page document yields indices 0..N-1. -/
theorem claim_C2_witness :
    ∃ out, defaultProcessor.process_pdf true (Except.ok [some demoPage, some demoPage])
        true (Except.ok []) = Except.ok out ∧
      out.map Chunk.chunk_index = List.range out.length :=
  ⟨_, rfl, claim_C2 true (Except.ok [some demoPage, some demoPage]) true (Except.ok []) _ rfl⟩

/-- C3 (amended): a PDF whose pages all strip to whitespace makes both
backends return zero pages, so extract_text_from_pdf raises ValueError
and process_pdf propagates the error instead of returning an empty
list; when extraction does succeed and no page yields a chunk,
process_pdf returns the empty list. -/
theorem claim_C3_amended :
    (∀ raws : List (Option (List Char)),
        (∀ t, some t ∈ raws → trim t = []) →
        defaultProcessor.process_pdf true (Except.ok raws) true (Except.ok raws) =
          Except.error
            "No PDF extraction library available. Please install PyPDF2 or pdfminer.six") ∧
    (∀ pages : List (List Char × Nat),
        (∀ pg ∈ pages, pageChunks defaultProcessor pg = []) →
        process_pages defaultProcessor pages = []) := by
  constructor
  · intro raws h
    have he : extractPages raws = [] := extractPagesAux_ws_empty raws 1 h
    simp [PDFProcessor.process_pdf, extract_text_from_pdf, tryPyPdf2, he]
  · exact fun pages h => process_pages_empty defaultProcessor pages h

/-- C3 witness: a one-page whitespace document errors, and pages whose
cleaned text is too short contribute no chunks. -/
theorem claim_C3_witness :
    (∀ t, some t ∈ [some [' ']] → trim t = []) ∧
    defaultProcessor.process_pdf true (Except.ok [some [' ']]) true (Except.ok [some [' ']]) =
      Except.error
        "No PDF extraction library available. Please install PyPDF2 or pdfminer.six" ∧
    (∀ pg ∈ [(("Hi.").toList, 1)], pageChunks defaultProcessor pg = []) ∧
    process_pages defaultProcessor [(("Hi.").toList, 1)] = [] := by
  have h1 : ∀ t, some t ∈ [some [' ']] → trim t = [] := by
    intro t ht
    have h2 := List.mem_singleton.mp ht
    injection h2 with h3
    rw [h3]
    rfl
  have h3 : ∀ pg ∈ [(("Hi.").toList, 1)], pageChunks defaultProcessor pg = [] := by decide
  exact ⟨h1, claim_C3_amended.1 [some [' ']] h1, h3,
    claim_C3_amended.2 [(("Hi.").toList, 1)] h3⟩

/-- C3 counterexample: for a PDF whose single page is one space, the
pipeline raises rather than returning the empty chunk list the claim
promises. -/
theorem claim_C3_cex :
    defaultProcessor.process_pdf true (Except.ok [some [' ']]) true (Except.ok [some [' ']]) =
      Except.error
        "No PDF extraction library available. Please install PyPDF2 or pdfminer.six" ∧
    defaultProcessor.process_pdf true (Except.ok [some [' ']]) true (Except.ok [some [' ']]) ≠
      Except.ok [] := by
  have herr : defaultProcessor.process_pdf true (Except.ok [some [' ']]) true
      (Except.ok [some [' ']]) =
      Except.error
        "No PDF extraction library available. Please install PyPDF2 or pdfminer.six" := rfl
  refine ⟨herr, ?_⟩
  intro h
  rw [herr] at h
  exact Except.noConfusion h

/-- C4: the pipeline is deterministic; it is a pure function of the
extracted page texts, with no hidden state, clock or randomness, so two
runs on the same input produce identical chunk sequences. -/
theorem claim_C4 :
    ∀ (p2a pma : Bool) (p2 pm : Except String (List (Option (List Char))))
      (pages : List (List Char × Nat)),
      defaultProcessor.process_pdf p2a p2 pma pm =
        defaultProcessor.process_pdf p2a p2 pma pm ∧
      process_pages defaultProcessor pages = process_pages defaultProcessor pages :=
  fun _ _ _ _ _ => ⟨rfl, rfl⟩

/-- C5: extract_sections tries Section, then §, then Article, then
Chapter, then Part, and returns the first match; in particular a
Section match preempts an Article match that occurs earlier in the
text. -/
theorem claim_C5 :
    (∀ (text : List Char) (pn : Nat) (m : List Char),
        reSearch (kwNumM kwSection true) text = some m →
        defaultProcessor.extract_sections text pn = some m) ∧
    defaultProcessor.extract_sections c5text 1 = some ("Section 4.1".toList) ∧
    reSearch (kwNumM kwArticle true) c5text = some ("Article 4".toList) := by
  refine ⟨?_, by decide, by decide⟩
  intro text pn m h
  unfold PDFProcessor.extract_sections
  rw [h]

/-- C5 witness: on the two-marker text the Section pattern matches and
extract_sections returns that match. -/
theorem claim_C5_witness :
    reSearch (kwNumM kwSection true) c5text = some ("Section 4.1".toList) ∧
    defaultProcessor.extract_sections c5text 1 = some ("Section 4.1".toList) :=
  ⟨by decide, claim_C5.1 c5text 1 ("Section 4.1".toList) (by decide)⟩

/-- C6: the hyphen substitution merges a word broken across a line
wrap, and on the concrete input constitu- newline tion the whole
normalizer returns constitution. -/
theorem claim_C6 :
    (∀ (w1 s w2 : List Char), w1 ≠ [] → w2 ≠ [] → s ≠ [] →
        (∀ c ∈ w1, isWordChar c = true) → (∀ c ∈ w2, isWordChar c = true) →
        (∀ c ∈ s, isSpaceChar c = true) →
        subAll hyphenM (w1 ++ '-' :: (s ++ w2)) = w1 ++ w2) ∧
    defaultProcessor.preprocess_text c6text = "constitution".toList :=
  ⟨fun w1 s w2 hw1 hw2 hs a1 a2 as => hyphen_sub_merge w1 s w2 hw1 hw2 hs a1 a2 as,
   by decide⟩

/-- C6 witness: the general merge lemma applied to the concrete broken
word. -/
theorem claim_C6_witness :
    ("constitu".toList ≠ [] ∧ "tion".toList ≠ [] ∧ ([' '] : List Char) ≠ []) ∧
    subAll hyphenM ("constitu".toList ++ '-' :: ([' '] ++ "tion".toList)) =
      "constitu".toList ++ "tion".toList :=
  ⟨⟨by decide, by decide, by decide⟩,
   claim_C6.1 ("constitu".toList) [' '] ("tion".toList) (by decide) (by decide)
     (by decide) (by decide) (by decide) (by decide)⟩

/-- C7 (amended): the enumerator substitution of line 211 rewrites each
match to itself and is therefore the identity on every input; the
spaced enumerator ( a ) is not matched and survives normalization
unchanged, not tightened to (a). -/
theorem claim_C7_amended :
    (∀ l : List Char, subAll enumM l = l) ∧
    defaultProcessor.preprocess_text c7text = c7text :=
  ⟨fun l => enum_id l.length l, by decide⟩

/-- C7 counterexample: normalizing the input ( a ) returns ( a )
itself, and (a) does not occur in the output, contradicting the claimed
tightening. -/
theorem claim_C7_cex :
    defaultProcessor.preprocess_text c7text = c7text ∧
    ¬ ("(a)".toList <:+: defaultProcessor.preprocess_text c7text) := by
  constructor
  · decide
  · decide

/-- C8 (amended): for a single 3000-character sentence all of whose
whitespace-delimited tokens are at most 2000 characters, every emitted
chunk is between 50 and 2000 characters (short remainders are
discarded, never emitted); the claimed split into at least two chunks
does not hold unconditionally (see the counterexample). -/
theorem claim_C8_amended :
    ∀ text : List Char, text.length = 3000 → splitSentences text = [text] →
      (∀ w ∈ splitWords text, w.length ≤ 2000) →
      ∀ c ∈ defaultProcessor.chunk_text text 1 none,
        50 ≤ c.text.length ∧ c.text.length ≤ 2000 :=
  fun text _ _ hw c hc =>
    ⟨chunk_text_min defaultProcessor text 1 none c hc,
     chunk_text_upper defaultProcessor text 1 none hw c hc⟩

/-- C8 witness: a concrete 3000-character two-word sentence satisfies
the hypotheses, and its chunks obey both bounds. -/
theorem claim_C8_witness :
    c8wit.length = 3000 ∧ splitSentences c8wit = [c8wit] ∧
    (∀ w ∈ splitWords c8wit, w.length ≤ 2000) ∧
    ∀ c ∈ defaultProcessor.chunk_text c8wit 1 none,
      50 ≤ c.text.length ∧ c.text.length ≤ 2000 := by
  have hmem : ∀ c ∈ c8wit, c = 'a' ∨ c = ' ' := by
    intro c hc
    unfold c8wit at hc
    rcases List.mem_append.mp hc with h | h
    · exact Or.inl (List.eq_of_mem_replicate h)
    · rcases List.mem_cons.mp h with h | h
      · exact Or.inr h
      · exact Or.inl (List.eq_of_mem_replicate h)
  have hlen : c8wit.length = 3000 := by
    unfold c8wit
    rw [List.length_append, List.length_cons, List.length_replicate,
      List.length_replicate]
  have hsent : splitSentences c8wit = [c8wit] := by
    refine splitSentences_nosplit ?_
    intro c hc
    rcases hmem c hc with h | h <;> (rw [h]; rfl)
  have hwords : ∀ w ∈ splitWords c8wit, w.length ≤ 2000 := by
    have hsplit : splitWords c8wit =
        splitWords (List.replicate 1500 'a') ++ splitWords (List.replicate 1499 'a') := by
      unfold c8wit splitWords
      exact swAux_append_sep (by decide) (List.replicate 1500 'a') []
        (List.replicate 1499 'a')
    have hone : ∀ n : Nat, n ≠ 0 → splitWords (List.replicate n 'a') =
        [List.replicate n 'a'] := by
      intro n hn
      refine splitWords_single ?_ ?_
      · intro he
        have h2 := congrArg List.length he
        rw [List.length_replicate, List.length_nil] at h2
        exact hn h2
      · intro c hc
        rw [List.eq_of_mem_replicate hc]
        rfl
    intro w hw
    rw [hsplit, hone 1500 (by decide), hone 1499 (by decide)] at hw
    rcases List.mem_append.mp hw with h | h <;>
      (rw [List.mem_singleton.mp h, List.length_replicate]; decide)
  exact ⟨hlen, hsent, hwords, claim_C8_amended c8wit hlen hsent hwords⟩

/-- C8 counterexample: 3000 letters a form a single 3000-character
sentence with no sentence-boundary punctuation, yet chunk_text returns
exactly one chunk, of length 3000: the claimed split into at least two
chunks of at most 2000 characters fails. -/
theorem claim_C8_cex :
    (List.replicate 3000 'a').length = 3000 ∧
    splitSentences (List.replicate 3000 'a') = [List.replicate 3000 'a'] ∧
    defaultProcessor.chunk_text (List.replicate 3000 'a') 1 none =
      [⟨List.replicate 3000 'a', 1, none, 0⟩] ∧
    ¬ (2 ≤ (defaultProcessor.chunk_text (List.replicate 3000 'a') 1 none).length ∧
        ∀ c ∈ defaultProcessor.chunk_text (List.replicate 3000 'a') 1 none,
          c.text.length ≤ 2000) := by
  have h := chunk_text_single_word defaultProcessor (List.replicate 3000 'a') 1 none
    (fun c hc => by rw [List.eq_of_mem_replicate hc]; rfl)
    (fun c hc => by rw [List.eq_of_mem_replicate hc]; rfl)
    (by
      intro he
      have h2 := congrArg List.length he
      rw [List.length_replicate, List.length_nil] at h2
      exact absurd h2 (by decide))
    (by rw [List.length_replicate]; decide)
    (by rw [List.length_replicate]; decide)
  refine ⟨by rw [List.length_replicate], ?_, h, ?_⟩
  · refine splitSentences_nosplit ?_
    intro c hc
    rw [List.eq_of_mem_replicate hc]
    rfl
  · intro hand
    have h2 := hand.1
    rw [h] at h2
    exact absurd h2 (by decide)

/-- C9: the broken-word rejoin substitution of line 198 is a no-op
inside preprocess_text: by the time it runs, all whitespace has been
collapsed to single spaces, and on such text both branches of its
replacement reproduce the match, so the pipeline equals the variant
with that substitution removed. -/
theorem claim_C9 :
    ∀ text : List Char,
      defaultProcessor.preprocess_text text =
        defaultProcessor.preprocess_text_norejoin text := by
  intro text
  cases text with
  | nil => rfl
  | cons c cs =>
    show defaultProcessor.fix_common_issues
        (trim (collapseWs (stripDisallowed (collapseWs (c :: cs))))) =
      defaultProcessor.fix_common_issues_norejoin
        (trim (collapseWs (stripDisallowed (collapseWs (c :: cs)))))
    unfold PDFProcessor.fix_common_issues PDFProcessor.fix_common_issues_norejoin
    rw [subAll_broken_id _ (wsOk_trim (wsOk_collapse _))]

/-- C10: whenever extract_text_from_pdf returns without raising, the
page list is nonempty and every page text has a non-whitespace
character, so the empty-pages guard of process_pdf never fires. -/
theorem claim_C10 :
    ∀ (p2a : Bool) (p2 : Except String (List (Option (List Char))))
      (pma : Bool) (pm : Except String (List (Option (List Char))))
      (pages : List (List Char × Nat)),
      extract_text_from_pdf p2a p2 pma pm = Except.ok pages →
      pages ≠ [] ∧ ∀ pr ∈ pages, trim pr.1 ≠ [] :=
  fun p2a p2 pma pm pages h => extract_ok_shape p2a pma p2 pm pages h

/-- C10 witness: a successful one-page extraction is nonempty with
non-whitespace text. -/
theorem claim_C10_witness :
    ∃ pages, extract_text_from_pdf true (Except.ok [some demoPage]) true
        (Except.ok []) = Except.ok pages ∧
      pages ≠ [] ∧ ∀ pr ∈ pages, trim pr.1 ≠ [] :=
  ⟨_, rfl, claim_C10 true (Except.ok [some demoPage]) true (Except.ok []) _ rfl⟩
